import Mathlib

/-!
Verification of the encryption-context codec (`source/enc_ctx.c` of the
aws-encryption-sdk-c repository): canonical serialization, strict
deserialization, size accounting and the clone/merge engine, shallowly
embedded in Lean 4.

Strings (`aws_string`) are modelled with an address (standing for the C
pointer identity), an optional allocator (`none` models a statically-owned
string whose `allocator` field is NULL) and their byte contents.  The hash
table is modelled as an association list whose order stands for the
unspecified iteration order; key equality is byte equality of the key
strings, as implemented by `aws_hash_callback_string_eq`.  Allocation is
modelled through an explicit oracle deciding which allocation calls
succeed, together with a fresh-address counter.
-/

namespace EncCtx

/-- Error codes raised by the codec: AWS_CRYPTOSDK_ERR_LIMIT_EXCEEDED,
AWS_ERROR_SHORT_BUFFER, AWS_CRYPTOSDK_ERR_BAD_CIPHERTEXT, the
memory-allocation error class of aws-c-common, and
AWS_ERROR_OVERFLOW_DETECTED raised by checked addition. -/
inductive Err where
  | limitExceeded
  | shortBuffer
  | badCiphertext
  | allocFailure
  | overflow
deriving DecidableEq, Repr

/-- Model of `struct aws_string`: `addr` models pointer identity,
`allocator = none` models a NULL `allocator` field (statically owned),
`bytes` the string contents. -/
structure AwsString where
  addr : Nat
  allocator : Option Nat
  bytes : List Nat
deriving DecidableEq, Repr

/-- Model of `aws_string_eq`: byte-for-byte content equality. -/
def aws_string_eq (a b : AwsString) : Bool :=
  decide (a.bytes = b.bytes)

/-- The encryption context hash table, modelled as an association list of
(key, value) string pairs; the list order models the unspecified hash-table
iteration order. -/
abbrev EncCtxMap := List (AwsString × AwsString)

/-- Model of `aws_hash_table_find` with `aws_hash_callback_string_eq`:
first entry whose key has the given bytes. -/
def hash_table_find : EncCtxMap → List Nat → Option (AwsString × AwsString)
  | [], _ => none
  | p :: rest, k => if p.1.bytes = k then some p else hash_table_find rest k

/-- Model of `aws_hash_table_put` with the `was_created` out-parameter: a
present key gets its value replaced (`was_created = false`); an absent key
is newly inserted (`was_created = true`). -/
def aws_hash_table_put (m : EncCtxMap) (key value : AwsString) : EncCtxMap × Bool :=
  match hash_table_find m key.bytes with
  | some _ => (m.map (fun p => if p.1.bytes = key.bytes then (p.1, value) else p), false)
  | none => (m ++ [(key, value)], true)

/-- Big-endian 2-byte encoding of a 16-bit value, as written by
`aws_byte_buf_write_be16`. -/
def encBe16 (n : Nat) : List Nat :=
  [n / 256 % 256, n % 256]

/-- Model of `aws_byte_cursor_read_be16`: reads two bytes big-endian and
advances; fails when fewer than two bytes remain.  The `% 256` reflects
that C memory cells are 8-bit. -/
def readBe16 : List Nat → Option (Nat × List Nat)
  | b0 :: b1 :: rest => some (b0 % 256 * 256 + b1 % 256, rest)
  | _ => none

/-- Model of `aws_byte_cursor_advance_nospec`: split off `len` bytes,
failing (NULL pointer result) when fewer than `len` bytes remain. -/
def cursor_advance (c : List Nat) (len : Nat) : Option (List Nat × List Nat) :=
  if len ≤ c.length then some (c.take len, c.drop len) else none

/-- Model of `struct aws_byte_buf`: a capacity and the bytes written so
far (`data.length` plays the role of the `len` field). -/
structure ByteBuf where
  capacity : Nat
  data : List Nat
deriving DecidableEq, Repr

/-- Capacity-checked append to a byte buffer, the common behaviour of the
`aws_byte_buf_write*` family. -/
def byte_buf_write (buf : ByteBuf) (bs : List Nat) : Option ByteBuf :=
  if buf.data.length + bs.length ≤ buf.capacity then
    some { buf with data := buf.data ++ bs }
  else none

/-- Model of `aws_byte_buf_write_be16`. -/
def byte_buf_write_be16 (buf : ByteBuf) (n : Nat) : Option ByteBuf :=
  byte_buf_write buf (encBe16 n)

/-- Model of `aws_byte_buf_clean_up`: the buffer is freed and zeroed. -/
def aws_byte_buf_clean_up (_ : ByteBuf) : ByteBuf :=
  { capacity := 0, data := [] }

/-- SIZE_MAX on the 64-bit platforms the SDK targets: 2 ^ 64 - 1. -/
def SIZE_MAX : Nat := 18446744073709551615

/-- Overflow-checked addition of two `size_t` values. -/
def aws_add_size_checked (a b : Nat) : Option Nat :=
  if a + b ≤ SIZE_MAX then some (a + b) else none

/-- Model of `aws_add_size_checked_varargs`: overflow-checked sum of a
list of `size_t` values, `none` on any intermediate overflow. -/
def aws_add_size_checked_varargs : List Nat → Option Nat
  | [] => some 0
  | x :: rest => (aws_add_size_checked_varargs rest).bind (aws_add_size_checked x)

/-- The accumulation loop of `aws_cryptosdk_enc_ctx_size`: starting from
`acc`, add `4 + key_len + value_len` per entry with overflow-checked
addition, failing with LimitExceeded as soon as the accumulator exceeds
65535. -/
def enc_ctx_size_loop : EncCtxMap → Nat → Except Err Nat
  | [], acc => .ok acc
  | (key, value) :: rest, acc =>
    match aws_add_size_checked_varargs [acc, key.bytes.length, value.bytes.length, 4] with
    | none => .error .overflow
    | some acc2 =>
      if 65535 < acc2 then .error .limitExceeded
      else enc_ctx_size_loop rest acc2

/-- Model of `aws_cryptosdk_enc_ctx_size`. -/
def aws_cryptosdk_enc_ctx_size (enc_ctx : EncCtxMap) : Except Err Nat :=
  if 65535 < enc_ctx.length then .error .limitExceeded
  else if enc_ctx.length = 0 then .ok 0
  else enc_ctx_size_loop enc_ctx 2

/-- Byte-lexicographic comparison of raw byte sequences.
Modelled from the spec: `aws_cryptosdk_compare_hash_elems_by_key_string`
(declared in `private/utils.h`, defined outside the provided sources)
compares the keys' raw bytes byte-lexicographically. -/
def lexLe : List Nat → List Nat → Bool
  | [], _ => true
  | _ :: _, [] => false
  | a :: as, b :: bs =>
    if a < b then true
    else if b < a then false
    else lexLe as bs

/-- Insert one snapshot element into an already key-sorted run. -/
def sortInsert (p : AwsString × AwsString) :
    List (AwsString × AwsString) → List (AwsString × AwsString)
  | [] => [p]
  | q :: rest =>
    if lexLe p.1.bytes q.1.bytes then p :: q :: rest
    else q :: sortInsert p rest

/-- Sort of the hash-element snapshot by byte-lexicographic key order.
Modelled from the spec: `aws_cryptosdk_hash_elems_array_init` snapshots
the table's entries and `aws_array_list_sort` sorts them with the
byte-lexicographic key comparator; with unique keys any comparison sort
yields this result. -/
def sortByKey : List (AwsString × AwsString) → List (AwsString × AwsString)
  | [] => []
  | p :: rest => sortInsert p (sortByKey rest)

/-- The write loop of `aws_cryptosdk_enc_ctx_serialize`: for each entry in
sorted order, write the 2-byte key length, the key bytes, the 2-byte value
length and the value bytes; any failed write takes the WRITE_ERR path. -/
def serialize_write_loop : List (AwsString × AwsString) → ByteBuf → Option ByteBuf
  | [], buf => some buf
  | (key, value) :: rest, buf =>
    match byte_buf_write_be16 buf (key.bytes.length % 65536) with
    | none => none
    | some buf1 =>
      match byte_buf_write buf1 key.bytes with
      | none => none
      | some buf2 =>
        match byte_buf_write_be16 buf2 (value.bytes.length % 65536) with
        | none => none
        | some buf3 =>
          match byte_buf_write buf3 value.bytes with
          | none => none
          | some buf4 => serialize_write_loop rest buf4

/-- Model of `aws_cryptosdk_enc_ctx_serialize`.  The returned buffer
models the in-out `output` parameter (cleaned up on the WRITE_ERR path). -/
def aws_cryptosdk_enc_ctx_serialize (output : ByteBuf) (enc_ctx : EncCtxMap) :
    Except Err Unit × ByteBuf :=
  let num_elems := enc_ctx.length
  if 65535 < num_elems then (.error .limitExceeded, output)
  else
    match aws_cryptosdk_enc_ctx_size enc_ctx with
    | .error e => (.error e, output)
    | .ok len =>
      if len = 0 then (.ok (), output)
      else if output.capacity < len then (.error .shortBuffer, output)
      else
        match byte_buf_write_be16 output (num_elems % 65536) with
        | none => (.error .shortBuffer, aws_byte_buf_clean_up output)
        | some buf =>
          match serialize_write_loop (sortByKey enc_ctx) buf with
          | none => (.error .shortBuffer, aws_byte_buf_clean_up buf)
          | some buf2 => (.ok (), buf2)

/-- Model of `aws_string_new_from_array`: consults the allocation oracle
at the current fresh-address counter; on success the new string lives at
that address and is owned by the given (non-NULL) allocator. -/
def aws_string_new_from_array (oracle : Nat → Bool) (alloc : Nat) (bs : List Nat) (n : Nat) :
    Option AwsString × Nat :=
  (if oracle n then some { addr := n, allocator := some alloc, bytes := bs } else none, n + 1)

/-- Modelled from the spec: `aws_cryptosdk_enc_ctx_clear` (declared in
`private/enc_ctx.h`, defined outside the provided sources) destroys every
entry of the mapping, leaving it empty. -/
def aws_cryptosdk_enc_ctx_clear (_ : EncCtxMap) : EncCtxMap := []

/-- The entry loop of `aws_cryptosdk_enc_ctx_deserialize`: parse
`count` length-prefixed key/value pairs, allocate owned copies, insert,
failing with ShortBuffer on truncation, BadCiphertext on a duplicate key
and the allocation error class when the oracle denies an allocation. -/
def deserialize_loop (oracle : Nat → Bool) (alloc : Nat) :
    Nat → EncCtxMap → List Nat → Nat → Except Err Unit × EncCtxMap × List Nat × Nat
  | 0, m, cursor, n => (.ok (), m, cursor, n)
  | i + 1, m, cursor, n =>
    match readBe16 cursor with
    | none => (.error .shortBuffer, m, cursor, n)
    | some (klen, c1) =>
      match cursor_advance c1 klen with
      | none => (.error .shortBuffer, m, c1, n)
      | some (kbytes, c2) =>
        match readBe16 c2 with
        | none => (.error .shortBuffer, m, c2, n)
        | some (vlen, c3) =>
          match cursor_advance c3 vlen with
          | none => (.error .shortBuffer, m, c3, n)
          | some (vbytes, c4) =>
            match aws_string_new_from_array oracle alloc kbytes n with
            | (ko, n1) =>
              match aws_string_new_from_array oracle alloc vbytes n1 with
              | (vo, n2) =>
                match ko, vo with
                | some k, some v =>
                  match aws_hash_table_put m k v with
                  | (m2, was_created) =>
                    if was_created then deserialize_loop oracle alloc i m2 c4 n2
                    else (.error .badCiphertext, m2, c4, n2)
                | _, _ => (.error .allocFailure, m, c4, n2)

/-- Model of `aws_cryptosdk_enc_ctx_deserialize`.  Returns the status, the
final state of the target mapping (the in-out `enc_ctx` parameter), the
final cursor and the final allocation counter. -/
def aws_cryptosdk_enc_ctx_deserialize (oracle : Nat → Bool) (alloc : Nat)
    (enc_ctx : EncCtxMap) (cursor : List Nat) (n : Nat) :
    Except Err Unit × EncCtxMap × List Nat × Nat :=
  let m0 := aws_cryptosdk_enc_ctx_clear enc_ctx
  if cursor.length = 0 then (.ok (), m0, cursor, n)
  else
    match readBe16 cursor with
    | none => (.error .shortBuffer, aws_cryptosdk_enc_ctx_clear m0, cursor, n)
    | some (elem_count, c1) =>
      if elem_count = 0 then (.error .badCiphertext, m0, c1, n)
      else
        match deserialize_loop oracle alloc elem_count m0 c1 n with
        | (.ok _, m2, c2, n2) => (.ok (), m2, c2, n2)
        | (.error e, m2, c2, n2) => (.error e, aws_cryptosdk_enc_ctx_clear m2, c2, n2)

/-- Model of `clone_or_reuse_string`: a string with a NULL allocator is
returned as-is (same pointer); otherwise an allocator-owned copy of its
bytes is made. -/
def clone_or_reuse_string (oracle : Nat → Bool) (allocator : Nat) (str : AwsString) (n : Nat) :
    Option AwsString × Nat :=
  if str.allocator = none then (some str, n)
  else aws_string_new_from_array oracle allocator str.bytes n

/-- Phase 1 of `aws_cryptosdk_enc_ctx_clone`: delete every destination
entry whose key is absent from the source. -/
def clone_prune (dest : EncCtxMap) (src : EncCtxMap) : EncCtxMap :=
  dest.filter (fun p => (hash_table_find src p.1.bytes).isSome)

/-- Phase 2 of `aws_cryptosdk_enc_ctx_clone`: for each source entry,
leave a byte-equal destination value alone, replace a differing value, or
insert a fresh entry, copying-or-reusing source strings as needed. -/
def clone_loop (oracle : Nat → Bool) (alloc : Nat) :
    List (AwsString × AwsString) → EncCtxMap → Nat → Except Err Unit × EncCtxMap × Nat
  | [], dest, n => (.ok (), dest, n)
  | (sk, sv) :: rest, dest, n =>
    match hash_table_find dest sk.bytes with
    | some de =>
      if aws_string_eq de.2 sv then clone_loop oracle alloc rest dest n
      else
        match clone_or_reuse_string oracle alloc sv n with
        | (none, n1) => (.error .allocFailure, dest, n1)
        | (some value, n1) =>
          clone_loop oracle alloc rest
            (dest.map (fun p => if p.1.bytes = sk.bytes then (p.1, value) else p)) n1
    | none =>
      match clone_or_reuse_string oracle alloc sk n with
      | (ko, n1) =>
        match clone_or_reuse_string oracle alloc sv n1 with
        | (vo, n2) =>
          match ko, vo with
          | some key, some value =>
            match aws_hash_table_put dest key value with
            | (dest2, _) => clone_loop oracle alloc rest dest2 n2
          | _, _ => (.error .allocFailure, dest, n2)

/-- Model of `aws_cryptosdk_enc_ctx_clone`. -/
def aws_cryptosdk_enc_ctx_clone (oracle : Nat → Bool) (alloc : Nat)
    (dest : EncCtxMap) (src : EncCtxMap) (n : Nat) :
    Except Err Unit × EncCtxMap × Nat :=
  clone_loop oracle alloc src (clone_prune dest src) n

/-- Byte-level projection of one entry: the observable (key bytes, value
bytes) pair, forgetting addresses and ownership. -/
def entryBytes (p : AwsString × AwsString) : List Nat × List Nat :=
  (p.1.bytes, p.2.bytes)

/-- Wire encoding of a single (key bytes, value bytes) pair. -/
def encPair (kv : List Nat × List Nat) : List Nat :=
  encBe16 kv.1.length ++ kv.1 ++ encBe16 kv.2.length ++ kv.2

/-- The entries a successful deserialization loop inserts for the given
byte pairs, starting at fresh-address counter `n`. -/
def newEntries (alloc : Nat) : List (List Nat × List Nat) → Nat → EncCtxMap
  | [], _ => []
  | (k, v) :: rest, n =>
    ({ addr := n, allocator := some alloc, bytes := k },
     { addr := n + 1, allocator := some alloc, bytes := v }) :: newEntries alloc rest (n + 2)

/-- Wire encoding of one snapshot entry, as written by the serializer's
write loop. -/
def encOf (p : AwsString × AwsString) : List Nat :=
  encPair (entryBytes p)

/-- A 65532-byte key string used as a concrete boundary input. -/
def bigKeyString : AwsString :=
  { addr := 0, allocator := some 1, bytes := List.replicate 65532 0 }

/-- An empty-bytes value string used as a concrete boundary input. -/
def emptyValString : AwsString :=
  { addr := 1, allocator := some 1, bytes := [] }

/-! ### Basic codec lemmas -/

theorem readBe16_encBe16 (n : Nat) (rest : List Nat) (h : n ≤ 65535) :
    readBe16 (encBe16 n ++ rest) = some (n, rest) := by
  simp only [encBe16, List.cons_append, List.nil_append, readBe16]
  have : n / 256 % 256 % 256 * 256 + n % 256 % 256 = n := by omega
  rw [this]

theorem cursor_advance_append (xs rest : List Nat) :
    cursor_advance (xs ++ rest) xs.length = some (xs, rest) := by
  simp [cursor_advance, List.take_left, List.drop_left]

/-! ### Size calculator -/

/-- Exact per-entry byte accounting: `4 + key_len + value_len` summed over
the mapping. -/
def sumEntries (m : EncCtxMap) : Nat :=
  (m.map (fun p => 4 + p.1.bytes.length + p.2.bytes.length)).sum

theorem sumEntries_nil : sumEntries [] = 0 := rfl

theorem sumEntries_cons (k v : AwsString) (m : EncCtxMap) :
    sumEntries ((k, v) :: m) = 4 + k.bytes.length + v.bytes.length + sumEntries m := by
  simp [sumEntries]

theorem varargs_four (a b c : Nat) :
    aws_add_size_checked_varargs [a, b, c, 4] =
      if a + b + c + 4 ≤ SIZE_MAX then some (a + b + c + 4) else none := by
  by_cases h1 : c + 4 ≤ 18446744073709551615
  · by_cases h2 : b + (c + 4) ≤ 18446744073709551615
    · by_cases h3 : a + (b + (c + 4)) ≤ 18446744073709551615
      · have h4 : a + b + c + 4 ≤ 18446744073709551615 := by omega
        simp [aws_add_size_checked_varargs, aws_add_size_checked, SIZE_MAX, h1, h2, h3, h4]
        omega
      · have h4 : ¬ a + b + c + 4 ≤ 18446744073709551615 := by omega
        simp [aws_add_size_checked_varargs, aws_add_size_checked, SIZE_MAX, h1, h2, h3, h4]
    · have h4 : ¬ a + b + c + 4 ≤ 18446744073709551615 := by omega
      simp [aws_add_size_checked_varargs, aws_add_size_checked, SIZE_MAX, h1, h2, h4]
  · have h4 : ¬ a + b + c + 4 ≤ 18446744073709551615 := by omega
    simp [aws_add_size_checked_varargs, aws_add_size_checked, SIZE_MAX, h1, h4]

theorem enc_ctx_size_loop_eq : ∀ (m : EncCtxMap) (acc : Nat), acc ≤ 65535 →
    (∀ p ∈ m, p.1.bytes.length + p.2.bytes.length + 4 + 65535 ≤ SIZE_MAX) →
    enc_ctx_size_loop m acc =
      if acc + sumEntries m ≤ 65535 then .ok (acc + sumEntries m)
      else .error .limitExceeded := by
  intro m
  induction m with
  | nil =>
    intro acc hacc _
    simp [enc_ctx_size_loop, sumEntries_nil, hacc]
  | cons p rest ih =>
    intro acc hacc hb
    obtain ⟨key, value⟩ := p
    have hhead := hb (key, value) (List.mem_cons_self _ _)
    simp only at hhead
    rw [enc_ctx_size_loop, varargs_four]
    rw [if_pos (by omega)]
    rw [sumEntries_cons]
    simp only
    by_cases hlim : 65535 < acc + key.bytes.length + value.bytes.length + 4
    · rw [if_pos hlim, if_neg (by omega)]
    · rw [if_neg hlim, ih _ (by omega) (fun q hq => hb q (List.mem_cons_of_mem _ hq))]
      have he : acc + key.bytes.length + value.bytes.length + 4 + sumEntries rest =
          acc + (4 + key.bytes.length + value.bytes.length + sumEntries rest) := by omega
      rw [he]

theorem enc_ctx_size_loop_ok : ∀ (m : EncCtxMap) (acc t : Nat),
    enc_ctx_size_loop m acc = .ok t →
    t = acc + sumEntries m ∧ acc ≤ t ∧ (m = [] ∨ t ≤ 65535) ∧
      ∀ p ∈ m, p.1.bytes.length ≤ 65531 ∧ p.2.bytes.length ≤ 65531 := by
  intro m
  induction m with
  | nil =>
    intro acc t h
    simp [enc_ctx_size_loop] at h
    simp [sumEntries_nil, h.symm]
  | cons p rest ih =>
    intro acc t h
    obtain ⟨key, value⟩ := p
    rw [enc_ctx_size_loop] at h
    rcases hv : aws_add_size_checked_varargs
        [acc, key.bytes.length, value.bytes.length, 4] with _ | acc2
    · rw [hv] at h; exact absurd h (by simp)
    · rw [hv] at h
      rw [varargs_four] at hv
      by_cases hsm : acc + key.bytes.length + value.bytes.length + 4 ≤ SIZE_MAX
      · rw [if_pos hsm] at hv
        have hacc2 : acc2 = acc + key.bytes.length + value.bytes.length + 4 := by
          simpa using hv.symm
        simp only at h
        by_cases hlim : 65535 < acc2
        · rw [if_pos hlim] at h; exact absurd h (by simp)
        · rw [if_neg hlim] at h
          obtain ⟨h1, h2, h3, h4⟩ := ih acc2 t h
          refine ⟨by rw [sumEntries_cons]; omega, by omega, ?_, ?_⟩
          · right
            rcases h3 with h3 | h3
            · subst h3; simp [sumEntries_nil] at h1; omega
            · exact h3
          · intro q hq
            rcases List.mem_cons.mp hq with hq | hq
            · subst hq
              refine ⟨?_, ?_⟩
              · show key.bytes.length ≤ 65531; omega
              · show value.bytes.length ≤ 65531; omega
            · exact h4 q hq
      · rw [if_neg hsm] at hv; exact absurd hv (by simp)

theorem size_nil : aws_cryptosdk_enc_ctx_size [] = .ok 0 := rfl

theorem sumEntries_append (m1 m2 : EncCtxMap) :
    sumEntries (m1 ++ m2) = sumEntries m1 + sumEntries m2 := by
  simp [sumEntries]

theorem enc_ctx_size_loop_cons (k v : AwsString) (rest : EncCtxMap) (acc : Nat)
    (h : acc + k.bytes.length + v.bytes.length + 4 ≤ SIZE_MAX) :
    enc_ctx_size_loop ((k, v) :: rest) acc =
      if 65535 < acc + k.bytes.length + v.bytes.length + 4 then .error .limitExceeded
      else enc_ctx_size_loop rest (acc + k.bytes.length + v.bytes.length + 4) := by
  rw [enc_ctx_size_loop, varargs_four, if_pos h]

theorem enc_ctx_size_loop_excess : ∀ (pre : EncCtxMap) (e : AwsString × AwsString)
    (suf : EncCtxMap) (acc : Nat), acc ≤ 65535 →
    (∀ p ∈ pre ++ [e], p.1.bytes.length + p.2.bytes.length + 4 + 65535 ≤ SIZE_MAX) →
    65535 < acc + sumEntries (pre ++ [e]) →
    enc_ctx_size_loop (pre ++ e :: suf) acc = .error .limitExceeded := by
  intro pre
  induction pre with
  | nil =>
    intro e suf acc hacc hb hx
    obtain ⟨k, v⟩ := e
    have hk := hb (k, v) (by simp)
    simp only at hk
    simp only [List.nil_append] at hx ⊢
    rw [sumEntries_cons, sumEntries_nil] at hx
    rw [enc_ctx_size_loop_cons _ _ _ _ (by omega), if_pos (by omega)]
  | cons p pre ih =>
    intro e suf acc hacc hb hx
    obtain ⟨k, v⟩ := p
    have hk := hb (k, v) (by simp)
    simp only at hk
    simp only [List.cons_append] at hx ⊢
    rw [sumEntries_cons] at hx
    rw [enc_ctx_size_loop_cons _ _ _ _ (by omega)]
    by_cases hlim : 65535 < acc + k.bytes.length + v.bytes.length + 4
    · rw [if_pos hlim]
    · rw [if_neg hlim]
      exact ih e suf _ (by omega)
        (fun q hq => hb q (List.mem_cons_of_mem _ hq)) (by omega)

theorem size_ok_facts (m : EncCtxMap) (t : Nat)
    (h : aws_cryptosdk_enc_ctx_size m = .ok t) (hm : m ≠ []) :
    t = 2 + sumEntries m ∧ 2 ≤ t ∧ t ≤ 65535 ∧ m.length ≤ 65535 ∧
      ∀ p ∈ m, p.1.bytes.length ≤ 65531 ∧ p.2.bytes.length ≤ 65531 := by
  rw [aws_cryptosdk_enc_ctx_size] at h
  by_cases hc : 65535 < m.length
  · rw [if_pos hc] at h; exact absurd h (by simp)
  · rw [if_neg hc] at h
    by_cases h0 : m.length = 0
    · exact absurd (List.length_eq_zero.mp h0) hm
    · rw [if_neg h0] at h
      obtain ⟨h1, h2, h3, h4⟩ := enc_ctx_size_loop_ok m 2 t h
      rcases h3 with h3 | h3
      · exact absurd h3 hm
      · exact ⟨by omega, by omega, h3, by omega, h4⟩

/-- C3: the size calculator fails with LimitExceeded for more than 65535
entries; returns 0 for an empty mapping; otherwise returns
`2 + sum (4 + key_len + value_len)` computed with overflow-checked
addition, failing with LimitExceeded whenever the accumulator exceeds
65535 — and it does so immediately at the first offending entry,
regardless of the entries after it. -/
theorem size_calculator_contract (m : EncCtxMap) :
    (65535 < m.length → aws_cryptosdk_enc_ctx_size m = .error .limitExceeded) ∧
    (m.length = 0 → aws_cryptosdk_enc_ctx_size m = .ok 0) ∧
    (0 < m.length → m.length ≤ 65535 →
      (∀ p ∈ m, p.1.bytes.length + p.2.bytes.length + 4 + 65535 ≤ SIZE_MAX) →
      (2 + sumEntries m ≤ 65535 →
        aws_cryptosdk_enc_ctx_size m = .ok (2 + sumEntries m)) ∧
      (65535 < 2 + sumEntries m →
        aws_cryptosdk_enc_ctx_size m = .error .limitExceeded)) ∧
    (∀ (pre : EncCtxMap) (e : AwsString × AwsString) (suf : EncCtxMap),
      m = pre ++ e :: suf → m.length ≤ 65535 →
      (∀ p ∈ pre ++ [e], p.1.bytes.length + p.2.bytes.length + 4 + 65535 ≤ SIZE_MAX) →
      65535 < 2 + sumEntries (pre ++ [e]) →
      aws_cryptosdk_enc_ctx_size m = .error .limitExceeded) := by
  refine ⟨?_, ?_, ?_, ?_⟩
  · intro h
    rw [aws_cryptosdk_enc_ctx_size, if_pos h]
  · intro h
    rw [aws_cryptosdk_enc_ctx_size, if_neg (by omega), if_pos h]
  · intro h0 hc hb
    rw [aws_cryptosdk_enc_ctx_size, if_neg (by omega), if_neg (by omega)]
    rw [enc_ctx_size_loop_eq m 2 (by omega) hb]
    constructor
    · intro hle
      rw [if_pos (by omega)]
    · intro hgt
      rw [if_neg (by omega)]
  · intro pre e suf hm hc hb hx
    subst hm
    rw [aws_cryptosdk_enc_ctx_size, if_neg (by omega),
      if_neg (by simp)]
    exact enc_ctx_size_loop_excess pre e suf 2 (by omega) hb (by omega)

theorem size_calculator_contract_witness :
    aws_cryptosdk_enc_ctx_size [] = .ok 0 ∧
    aws_cryptosdk_enc_ctx_size
      [({ addr := 0, allocator := some 1, bytes := [97] },
        { addr := 1, allocator := some 1, bytes := [98, 99] })] = .ok 9 ∧
    aws_cryptosdk_enc_ctx_size [(bigKeyString, emptyValString)] = .error .limitExceeded := by
  refine ⟨(size_calculator_contract []).2.1 rfl, ?_, ?_⟩
  · have h := ((size_calculator_contract
      [({ addr := 0, allocator := some 1, bytes := [97] },
        { addr := 1, allocator := some 1, bytes := [98, 99] })]).2.2.1
      (by simp) (by simp) (by intro p hp; simp at hp; subst hp; simp [SIZE_MAX])).1
      (by simp [sumEntries])
    simpa [sumEntries] using h
  · have h1 : bigKeyString.bytes.length = 65532 := by
      simp only [bigKeyString, List.length_replicate]
    have h := (size_calculator_contract [(bigKeyString, emptyValString)]).2.2.2
      [] (bigKeyString, emptyValString) [] rfl
      (by rw [List.length_singleton]; omega)
      (by
        intro p hp
        rw [List.nil_append, List.mem_singleton] at hp
        subst hp
        rw [show ((bigKeyString, emptyValString) : AwsString × AwsString).1 =
          bigKeyString from rfl, h1]
        decide)
      (by
        rw [List.nil_append, sumEntries_cons, sumEntries_nil, h1]
        decide)
    exact h

/-! ### Deserializer loop lemmas -/

theorem hash_table_find_append (m1 m2 : EncCtxMap) (k : List Nat) :
    hash_table_find (m1 ++ m2) k =
      match hash_table_find m1 k with
      | some p => some p
      | none => hash_table_find m2 k := by
  induction m1 with
  | nil => simp [hash_table_find]
  | cons p rest ih =>
    by_cases h : p.1.bytes = k
    · simp [hash_table_find, h]
    · simp [hash_table_find, h, ih]

theorem newEntries_entryBytes (alloc : Nat) :
    ∀ (es : List (List Nat × List Nat)) (n : Nat),
    (newEntries alloc es n).map entryBytes = es := by
  intro es
  induction es with
  | nil => intro n; rfl
  | cons e rest ih =>
    intro n
    obtain ⟨k, v⟩ := e
    simp [newEntries, entryBytes, ih]

theorem deserialize_loop_cons_new (alloc i n : Nat) (m : EncCtxMap)
    (k v rest : List Nat) (hk : k.length ≤ 65535) (hv : v.length ≤ 65535)
    (hfind : hash_table_find m k = none) :
    deserialize_loop (fun _ => true) alloc (i + 1) m (encPair (k, v) ++ rest) n =
      deserialize_loop (fun _ => true) alloc i
        (m ++ [({ addr := n, allocator := some alloc, bytes := k },
                { addr := n + 1, allocator := some alloc, bytes := v })]) rest (n + 2) := by
  have happ : encPair (k, v) ++ rest =
      encBe16 k.length ++ (k ++ (encBe16 v.length ++ (v ++ rest))) := by
    simp [encPair]
  rw [happ, deserialize_loop]
  simp only [readBe16_encBe16 _ _ hk, readBe16_encBe16 _ _ hv, cursor_advance_append,
    aws_string_new_from_array, aws_hash_table_put, hfind, if_true]

theorem deserialize_loop_cons_dup (alloc i n : Nat) (m : EncCtxMap)
    (k v rest : List Nat) (hk : k.length ≤ 65535) (hv : v.length ≤ 65535)
    (p : AwsString × AwsString) (hfind : hash_table_find m k = some p) :
    deserialize_loop (fun _ => true) alloc (i + 1) m (encPair (k, v) ++ rest) n =
      (.error .badCiphertext,
        m.map (fun q => if q.1.bytes = k then
          (q.1, { addr := n + 1, allocator := some alloc, bytes := v }) else q),
        rest, n + 2) := by
  have happ : encPair (k, v) ++ rest =
      encBe16 k.length ++ (k ++ (encBe16 v.length ++ (v ++ rest))) := by
    simp [encPair]
  rw [happ, deserialize_loop]
  simp only [readBe16_encBe16 _ _ hk, readBe16_encBe16 _ _ hv, cursor_advance_append,
    aws_string_new_from_array, aws_hash_table_put, hfind, if_true,
    Bool.false_eq_true, if_false]

theorem deserialize_loop_wf (alloc : Nat) :
    ∀ (es : List (List Nat × List Nat)) (m : EncCtxMap) (rest : List Nat) (n : Nat),
    (∀ kv ∈ es, kv.1.length ≤ 65535 ∧ kv.2.length ≤ 65535) →
    (es.map Prod.fst).Nodup →
    (∀ kv ∈ es, hash_table_find m kv.1 = none) →
    deserialize_loop (fun _ => true) alloc es.length m (es.flatMap encPair ++ rest) n =
      (.ok (), m ++ newEntries alloc es n, rest, n + 2 * es.length) := by
  intro es
  induction es with
  | nil =>
    intro m rest n _ _ _
    simp [deserialize_loop, newEntries]
  | cons e es ih =>
    intro m rest n hlen hnd hdis
    obtain ⟨k, v⟩ := e
    have hk := (hlen (k, v) (List.mem_cons_self _ _)).1
    have hv := (hlen (k, v) (List.mem_cons_self _ _)).2
    simp only at hk hv
    have hfind := hdis (k, v) (List.mem_cons_self _ _)
    simp only at hfind
    have hnd2 := hnd
    rw [List.map_cons] at hnd2
    have hknotin : k ∉ es.map Prod.fst := (List.nodup_cons.mp hnd2).1
    have hndtail : (es.map Prod.fst).Nodup := (List.nodup_cons.mp hnd2).2
    have hfm : (((k, v) :: es).flatMap encPair) ++ rest =
        encPair (k, v) ++ (es.flatMap encPair ++ rest) := by
      simp
    rw [List.length_cons, hfm,
      deserialize_loop_cons_new alloc es.length n m k v _ hk hv hfind]
    rw [ih _ _ _ (fun q hq => hlen q (List.mem_cons_of_mem _ hq)) hndtail
      (by
        intro q hq
        rw [hash_table_find_append, hdis q (List.mem_cons_of_mem _ hq)]
        have hne : ({ addr := n, allocator := some alloc, bytes := k } :
            AwsString).bytes ≠ q.1 := by
          intro hcon
          simp only at hcon
          exact hknotin (hcon ▸ List.mem_map_of_mem Prod.fst hq)
        simp [hash_table_find, hne])]
    simp only [newEntries, List.append_assoc, List.singleton_append, List.cons_append,
      List.nil_append, Prod.mk.injEq, eq_self_iff_true, true_and, and_true]
    omega

theorem deserialize_loop_own (oracle : Nat → Bool) (alloc : Nat) :
    ∀ (i : Nat) (m : EncCtxMap) (cursor : List Nat) (n : Nat) (m2 : EncCtxMap)
      (c2 : List Nat) (n2 : Nat),
    deserialize_loop oracle alloc i m cursor n = (.ok (), m2, c2, n2) →
    ∀ p ∈ m2, p ∈ m ∨ (p.1.allocator = some alloc ∧ p.2.allocator = some alloc) := by
  intro i
  induction i with
  | zero =>
    intro m cursor n m2 c2 n2 h p hp
    rw [deserialize_loop] at h
    simp only [Prod.mk.injEq] at h
    exact Or.inl (by rw [h.2.1]; exact hp)
  | succ i ih =>
    intro m cursor n m2 c2 n2 h p hp
    rw [deserialize_loop] at h
    rcases hr1 : readBe16 cursor with _ | ⟨klen, c1⟩
    · simp only [hr1] at h
      exact absurd h (by simp)
    · simp only [hr1] at h
      rcases ha1 : cursor_advance c1 klen with _ | ⟨kb, cA⟩
      · simp only [ha1] at h
        exact absurd h (by simp)
      · simp only [ha1] at h
        rcases hr2 : readBe16 cA with _ | ⟨vlen, cB⟩
        · simp only [hr2] at h
          exact absurd h (by simp)
        · simp only [hr2] at h
          rcases ha2 : cursor_advance cB vlen with _ | ⟨vb, cC⟩
          · simp only [ha2] at h
            exact absurd h (by simp)
          · simp only [ha2, aws_string_new_from_array] at h
            rcases ho1 : oracle n with _ | _
            · simp only [ho1, Bool.false_eq_true, if_false] at h
              exact absurd h (by simp)
            · simp only [ho1, eq_self_iff_true, if_true] at h
              rcases ho2 : oracle (n + 1) with _ | _
              · simp only [ho2, Bool.false_eq_true, if_false] at h
                exact absurd h (by simp)
              · simp only [ho2, eq_self_iff_true, if_true, aws_hash_table_put] at h
                rcases hf : hash_table_find m kb with _ | q
                · simp only [hf, eq_self_iff_true, if_true] at h
                  rcases ih _ _ _ _ _ _ h p hp with hin | hown
                  · rcases List.mem_append.mp hin with hm | hKV
                    · exact Or.inl hm
                    · right
                      have hpe := List.mem_singleton.mp hKV
                      subst hpe
                      exact ⟨rfl, rfl⟩
                  · exact Or.inr hown
                · simp only [hf, Bool.false_eq_true, if_false] at h
                  exact absurd h (by simp)

/-- C9: every key string and value string that a successful
deserialization leaves in the mapping is allocator-owned (its allocator
is the caller's allocator), never statically borrowed. -/
theorem deserialize_allocator_ownership (oracle : Nat → Bool) (alloc : Nat)
    (enc_ctx : EncCtxMap) (cursor : List Nat) (n : Nat)
    (m2 : EncCtxMap) (c2 : List Nat) (n2 : Nat)
    (h : aws_cryptosdk_enc_ctx_deserialize oracle alloc enc_ctx cursor n =
      (.ok (), m2, c2, n2)) :
    ∀ p ∈ m2, p.1.allocator = some alloc ∧ p.2.allocator = some alloc := by
  intro p hp
  rcases cursor with _ | ⟨b0, cursor1⟩
  · rw [show aws_cryptosdk_enc_ctx_deserialize oracle alloc enc_ctx [] n =
      ((.ok (), [], [], n) : Except Err Unit × EncCtxMap × List Nat × Nat) from rfl] at h
    simp only [Prod.mk.injEq] at h
    rw [← h.2.1] at hp
    simp at hp
  · rcases cursor1 with _ | ⟨b1, cursor2⟩
    · rw [show aws_cryptosdk_enc_ctx_deserialize oracle alloc enc_ctx [b0] n =
        ((.error .shortBuffer, [], [b0], n) :
          Except Err Unit × EncCtxMap × List Nat × Nat) from rfl] at h
      exact absurd h (by simp)
    · simp only [aws_cryptosdk_enc_ctx_deserialize, aws_cryptosdk_enc_ctx_clear,
        readBe16, List.length_cons] at h
      rw [if_neg (by omega)] at h
      by_cases hc : b0 % 256 * 256 + b1 % 256 = 0
      · rw [if_pos hc] at h
        exact absurd h (by simp)
      · rw [if_neg hc] at h
        rcases hl : deserialize_loop oracle alloc (b0 % 256 * 256 + b1 % 256) []
            cursor2 n with ⟨r, mz, cz, nz⟩
        rw [hl] at h
        rcases r with e | u
        · simp at h
        · obtain ⟨⟩ := u
          simp only [Prod.mk.injEq] at h
          have hpz : p ∈ mz := by rw [h.2.1]; exact hp
          rcases deserialize_loop_own oracle alloc _ _ _ _ _ _ _ hl p hpz with hin | hown
          · simp at hin
          · exact hown

/-- C9 witness: a concrete successful parse of one entry installs
allocator-owned strings. -/
theorem deserialize_allocator_ownership_witness :
    ({ addr := 0, allocator := some 7, bytes := [97] } : AwsString).allocator = some 7 ∧
    ({ addr := 1, allocator := some 7, bytes := [98] } : AwsString).allocator = some 7 := by
  have h := deserialize_allocator_ownership (fun _ => true) 7 [] [0, 1, 0, 1, 97, 0, 1, 98] 0
    [({ addr := 0, allocator := some 7, bytes := [97] },
      { addr := 1, allocator := some 7, bytes := [98] })] [] 2 rfl
  exact h _ (List.mem_singleton.mpr rfl)

theorem deserialize_wf_top (alloc n : Nat) (enc_ctx : EncCtxMap)
    (es : List (List Nat × List Nat)) (trailing : List Nat)
    (h1 : 1 ≤ es.length) (h2 : es.length ≤ 65535)
    (hlen : ∀ kv ∈ es, kv.1.length ≤ 65535 ∧ kv.2.length ≤ 65535)
    (hnd : (es.map Prod.fst).Nodup) :
    aws_cryptosdk_enc_ctx_deserialize (fun _ => true) alloc enc_ctx
        (encBe16 es.length ++ (es.flatMap encPair ++ trailing)) n =
      (.ok (), newEntries alloc es n, trailing, n + 2 * es.length) := by
  simp only [aws_cryptosdk_enc_ctx_deserialize, aws_cryptosdk_enc_ctx_clear,
    readBe16_encBe16 _ _ h2,
    deserialize_loop_wf alloc es [] trailing n hlen hnd (fun q hq => rfl)]
  rw [if_neg (by simp [encBe16]), if_neg (by omega)]
  simp

theorem flatMap_encOf_eq : ∀ l : List (AwsString × AwsString),
    l.flatMap encOf = (l.map entryBytes).flatMap encPair := by
  intro l
  induction l with
  | nil => rfl
  | cons p rest ih => simp [encOf, ih]

/-- C10: a cursor that begins with a well-formed encoding of count > 0
entries (no duplicate keys, all fields present) followed by any trailing
bytes deserializes successfully, the mapping contains exactly those
entries, and the trailing bytes are left unconsumed in the cursor. -/
theorem deserialize_trailing_bytes (alloc n : Nat) (enc_ctx : EncCtxMap)
    (es : List (List Nat × List Nat)) (trailing : List Nat)
    (h1 : 1 ≤ es.length) (h2 : es.length ≤ 65535)
    (hlen : ∀ kv ∈ es, kv.1.length ≤ 65535 ∧ kv.2.length ≤ 65535)
    (hnd : (es.map Prod.fst).Nodup) :
    aws_cryptosdk_enc_ctx_deserialize (fun _ => true) alloc enc_ctx
        (encBe16 es.length ++ (es.flatMap encPair ++ trailing)) n =
      (.ok (), newEntries alloc es n, trailing, n + 2 * es.length) ∧
    (newEntries alloc es n).map entryBytes = es :=
  ⟨deserialize_wf_top alloc n enc_ctx es trailing h1 h2 hlen hnd,
   newEntries_entryBytes alloc es n⟩

/-- C10 witness at a concrete input: one entry with key 97 and value 98,
followed by the trailing bytes 5, 6. -/
theorem deserialize_trailing_bytes_witness :
    aws_cryptosdk_enc_ctx_deserialize (fun _ => true) 7 []
      [0, 1, 0, 1, 97, 0, 1, 98, 5, 6] 0 =
      (.ok (), [({ addr := 0, allocator := some 7, bytes := [97] },
                 { addr := 1, allocator := some 7, bytes := [98] })], [5, 6], 2) := by
  have h := (deserialize_trailing_bytes 7 0 [] [([97], [98])] [5, 6]
    (by decide) (by decide) (by decide) (by decide)).1
  simpa [encBe16, encPair, newEntries] using h

/-- C5: an input whose declared count covers two entries with
byte-identical keys (count = 2 with the same key twice) fails
deserialization with BadCiphertext and the target mapping ends up
empty. -/
theorem deserialize_duplicate_key (alloc n : Nat) (enc_ctx : EncCtxMap)
    (k v1 v2 trailing : List Nat)
    (hk : k.length ≤ 65535) (hv1 : v1.length ≤ 65535) (hv2 : v2.length ≤ 65535) :
    aws_cryptosdk_enc_ctx_deserialize (fun _ => true) alloc enc_ctx
        (encBe16 2 ++ (encPair (k, v1) ++ (encPair (k, v2) ++ trailing))) n =
      (.error .badCiphertext, [], trailing, n + 4) := by
  have hfind : hash_table_find
      [({ addr := n, allocator := some alloc, bytes := k },
        { addr := n + 1, allocator := some alloc, bytes := v1 })] k =
      some ({ addr := n, allocator := some alloc, bytes := k },
        { addr := n + 1, allocator := some alloc, bytes := v1 }) := by
    simp [hash_table_find]
  have hdup := deserialize_loop_cons_dup alloc 0 (n + 2)
    [({ addr := n, allocator := some alloc, bytes := k },
      { addr := n + 1, allocator := some alloc, bytes := v1 })]
    k v2 trailing hk hv2 _ hfind
  rw [Nat.zero_add] at hdup
  simp only [aws_cryptosdk_enc_ctx_deserialize, aws_cryptosdk_enc_ctx_clear,
    readBe16_encBe16 _ _ (by omega : (2 : Nat) ≤ 65535),
    deserialize_loop_cons_new alloc 1 n [] k v1 _ hk hv1 rfl]
  rw [if_neg (by simp [encBe16]), if_neg (by omega)]
  simp [hdup]

/-- C5 witness at a concrete input: count = 2, key 97 repeated with
values 1 and 2, starting from a non-empty target mapping. -/
theorem deserialize_duplicate_key_witness :
    aws_cryptosdk_enc_ctx_deserialize (fun _ => true) 7
      [({ addr := 9, allocator := some 1, bytes := [5] },
        { addr := 10, allocator := some 1, bytes := [6] })]
      [0, 2, 0, 1, 97, 0, 1, 1, 0, 1, 97, 0, 1, 2] 0 =
      (.error .badCiphertext, [], [], 4) := by
  have h := deserialize_duplicate_key 7 0
    [({ addr := 9, allocator := some 1, bytes := [5] },
      { addr := 10, allocator := some 1, bytes := [6] })]
    [97] [1] [2] [] (by decide) (by decide) (by decide)
  simpa [encBe16, encPair] using h

/-! ### Serializer lemmas -/

theorem encBe16_length (n : Nat) : (encBe16 n).length = 2 := rfl

theorem encOf_length (p : AwsString × AwsString) :
    (encOf p).length = 4 + p.1.bytes.length + p.2.bytes.length := by
  obtain ⟨k, v⟩ := p
  simp [encOf, encPair, entryBytes, encBe16]
  omega

theorem sortInsert_perm (p : AwsString × AwsString) :
    ∀ l : List (AwsString × AwsString), List.Perm (sortInsert p l) (p :: l) := by
  intro l
  induction l with
  | nil => simp [sortInsert]
  | cons q rest ih =>
    rw [sortInsert]
    by_cases h : lexLe p.1.bytes q.1.bytes
    · rw [if_pos h]
    · rw [if_neg h]
      exact (ih.cons q).trans (List.Perm.swap p q rest)

theorem sortByKey_perm : ∀ l : List (AwsString × AwsString),
    List.Perm (sortByKey l) l := by
  intro l
  induction l with
  | nil => simp [sortByKey]
  | cons p rest ih =>
    rw [sortByKey]
    exact (sortInsert_perm p (sortByKey rest)).trans (ih.cons p)

theorem length_flatMap_encOf : ∀ l : List (AwsString × AwsString),
    (l.flatMap encOf).length = sumEntries l := by
  intro l
  induction l with
  | nil => rfl
  | cons p rest ih =>
    obtain ⟨k, v⟩ := p
    rw [List.flatMap_cons, List.length_append, ih, sumEntries_cons, encOf_length]

theorem byte_buf_write_app (cap : Nat) (x extra : List Nat)
    (hle : x.length + extra.length ≤ cap) :
    byte_buf_write { capacity := cap, data := x } extra =
      some { capacity := cap, data := x ++ extra } := by
  rw [byte_buf_write, if_pos (by simpa using hle)]

theorem serialize_write_entry (key value : AwsString)
    (rest : List (AwsString × AwsString)) (buf : ByteBuf)
    (hk : key.bytes.length ≤ 65535) (hv : value.bytes.length ≤ 65535)
    (hcap : buf.data.length + (4 + key.bytes.length + value.bytes.length) ≤
      buf.capacity) :
    serialize_write_loop ((key, value) :: rest) buf =
      serialize_write_loop rest { buf with data := buf.data ++ encOf (key, value) } := by
  obtain ⟨cap, d⟩ := buf
  simp only at hcap
  simp only [serialize_write_loop, byte_buf_write_be16,
    byte_buf_write_app cap d (encBe16 (key.bytes.length % 65536))
      (by rw [encBe16_length]; omega),
    byte_buf_write_app cap (d ++ encBe16 (key.bytes.length % 65536)) key.bytes
      (by simp only [List.length_append, encBe16_length]; omega),
    byte_buf_write_app cap (d ++ encBe16 (key.bytes.length % 65536) ++ key.bytes)
      (encBe16 (value.bytes.length % 65536))
      (by simp only [List.length_append, encBe16_length]; omega),
    byte_buf_write_app cap
      (d ++ encBe16 (key.bytes.length % 65536) ++ key.bytes ++
        encBe16 (value.bytes.length % 65536)) value.bytes
      (by simp only [List.length_append, encBe16_length]; omega)]
  congr 1
  simp [encOf, encPair, entryBytes,
    Nat.mod_eq_of_lt (show key.bytes.length < 65536 by omega),
    Nat.mod_eq_of_lt (show value.bytes.length < 65536 by omega)]

theorem serialize_write_loop_eq :
    ∀ (es : List (AwsString × AwsString)) (buf : ByteBuf),
    (∀ p ∈ es, p.1.bytes.length ≤ 65535 ∧ p.2.bytes.length ≤ 65535) →
    buf.data.length + (es.flatMap encOf).length ≤ buf.capacity →
    serialize_write_loop es buf =
      some { buf with data := buf.data ++ es.flatMap encOf } := by
  intro es
  induction es with
  | nil =>
    intro buf _ _
    simp [serialize_write_loop]
  | cons e es ih =>
    intro buf hb hcap
    obtain ⟨key, value⟩ := e
    have hk := (hb (key, value) (List.mem_cons_self _ _)).1
    have hv := (hb (key, value) (List.mem_cons_self _ _)).2
    rw [List.flatMap_cons, List.length_append, encOf_length] at hcap
    simp only at hcap
    rw [serialize_write_entry key value es buf hk hv (by omega)]
    rw [ih _ (fun q hq => hb q (List.mem_cons_of_mem _ hq))
      (by simp only [List.length_append, encOf_length]; omega)]
    simp [List.flatMap_cons, List.append_assoc]

theorem serialize_ok_eq (enc_ctx : EncCtxMap) (output : ByteBuf) (t : Nat)
    (hne : enc_ctx ≠ [])
    (hsz : aws_cryptosdk_enc_ctx_size enc_ctx = .ok t)
    (hcap : t ≤ output.capacity) (hdata : output.data = []) :
    aws_cryptosdk_enc_ctx_serialize output enc_ctx =
      (.ok (), { output with
        data := encBe16 enc_ctx.length ++ (sortByKey enc_ctx).flatMap encOf }) := by
  obtain ⟨ht, ht2, ht3, hcnt, hbounds⟩ := size_ok_facts enc_ctx t hsz hne
  obtain ⟨cap, d⟩ := output
  simp only at hcap hdata
  subst hdata
  have hbs : ∀ p ∈ sortByKey enc_ctx,
      p.1.bytes.length ≤ 65535 ∧ p.2.bytes.length ≤ 65535 := by
    intro p hp
    have hm := hbounds p ((sortByKey_perm enc_ctx).mem_iff.mp hp)
    exact ⟨by omega, by omega⟩
  have hflen : ((sortByKey enc_ctx).flatMap encOf).length = sumEntries enc_ctx := by
    rw [length_flatMap_encOf]
    unfold sumEntries
    exact ((sortByKey_perm enc_ctx).map _).sum_eq
  have hq0 : (([] : List Nat) ++ encBe16 (enc_ctx.length % 65536)).length = 2 := by
    rw [List.nil_append, encBe16_length]
  have wloop := serialize_write_loop_eq (sortByKey enc_ctx)
    { capacity := cap, data := [] ++ encBe16 (enc_ctx.length % 65536) } hbs
    (by
      show (([] : List Nat) ++ encBe16 (enc_ctx.length % 65536)).length +
        ((sortByKey enc_ctx).flatMap encOf).length ≤ cap
      rw [hq0, hflen]
      omega)
  rw [aws_cryptosdk_enc_ctx_serialize]
  simp only [hsz, byte_buf_write_be16,
    byte_buf_write_app cap [] (encBe16 (enc_ctx.length % 65536))
      (by rw [List.length_nil, encBe16_length]; omega),
    wloop]
  rw [if_neg (by omega), if_neg (by omega), if_neg (by show ¬ cap < t; omega)]
  rw [Nat.mod_eq_of_lt (by omega)]
  simp

/-! ### Lexicographic order lemmas -/

theorem lexLe_total : ∀ a b : List Nat, lexLe a b = true ∨ lexLe b a = true := by
  intro a
  induction a with
  | nil => intro b; left; rfl
  | cons x as ih =>
    intro b
    rcases b with _ | ⟨y, bs⟩
    · right; rfl
    · rw [lexLe, lexLe]
      rcases Nat.lt_trichotomy x y with h | h | h
      · left; rw [if_pos h]
      · subst h
        rw [if_neg (lt_irrefl x), if_neg (lt_irrefl x), if_neg (lt_irrefl x),
          if_neg (lt_irrefl x)]
        exact ih bs
      · right; rw [if_pos h]

theorem lexLe_antisymm : ∀ a b : List Nat,
    lexLe a b = true → lexLe b a = true → a = b := by
  intro a
  induction a with
  | nil =>
    intro b h1 h2
    rcases b with _ | ⟨y, bs⟩
    · rfl
    · rw [lexLe] at h2
      exact absurd h2 (by simp)
  | cons x as ih =>
    intro b h1 h2
    rcases b with _ | ⟨y, bs⟩
    · rw [lexLe] at h1
      exact absurd h1 (by simp)
    · rw [lexLe] at h1 h2
      rcases Nat.lt_trichotomy x y with h | h | h
      · rw [if_neg (by omega), if_pos h] at h2
        exact absurd h2 (by simp)
      · subst h
        rw [if_neg (lt_irrefl x), if_neg (lt_irrefl x)] at h1 h2
        rw [ih bs h1 h2]
      · rw [if_neg (by omega), if_pos h] at h1
        exact absurd h1 (by simp)

theorem lexLe_trans : ∀ a b c : List Nat,
    lexLe a b = true → lexLe b c = true → lexLe a c = true := by
  intro a
  induction a with
  | nil => intro b c _ _; rfl
  | cons x as ih =>
    intro b c h1 h2
    rcases b with _ | ⟨y, bs⟩
    · rw [lexLe] at h1
      exact absurd h1 (by simp)
    · rcases c with _ | ⟨z, cs⟩
      · rw [lexLe] at h2
        exact absurd h2 (by simp)
      · rw [lexLe] at h1 h2 ⊢
        by_cases hxy : x < y
        · by_cases hxz : x < z
          · rw [if_pos hxz]
          · by_cases hyz : y < z
            · exact absurd (by omega : x < z) hxz
            · by_cases hzy : z < y
              · rw [if_neg hyz, if_pos hzy] at h2
                exact absurd h2 (by simp)
              · exact absurd (by omega : x < z) hxz
        · by_cases hyx : y < x
          · rw [if_neg hxy, if_pos hyx] at h1
            exact absurd h1 (by simp)
          · have hxy2 : x = y := by omega
            subst hxy2
            rw [if_neg hxy, if_neg hyx] at h1
            by_cases hxz : x < z
            · rw [if_pos hxz]
            · by_cases hzx : z < x
              · rw [if_neg hxz, if_pos hzx] at h2
                exact absurd h2 (by simp)
              · rw [if_neg hxz, if_neg hzx] at h2 ⊢
                exact ih bs cs h1 h2

theorem sortInsert_sorted (p : AwsString × AwsString) :
    ∀ l, l.Pairwise (fun a b => lexLe a.1.bytes b.1.bytes = true) →
      (sortInsert p l).Pairwise (fun a b => lexLe a.1.bytes b.1.bytes = true) := by
  intro l
  induction l with
  | nil => intro _; simp [sortInsert]
  | cons q rest ih =>
    intro hs
    rw [sortInsert]
    obtain ⟨hq, hrest⟩ := List.pairwise_cons.mp hs
    by_cases h : lexLe p.1.bytes q.1.bytes = true
    · rw [if_pos h]
      refine List.Pairwise.cons ?_ hs
      intro b hb
      rcases List.mem_cons.mp hb with rfl | hb
      · exact h
      · exact lexLe_trans _ _ _ h (hq b hb)
    · rw [if_neg h]
      have hqp : lexLe q.1.bytes p.1.bytes = true := by
        rcases lexLe_total p.1.bytes q.1.bytes with ht | ht
        · exact absurd ht h
        · exact ht
      refine List.Pairwise.cons ?_ (ih hrest)
      intro b hb
      rcases List.mem_cons.mp ((sortInsert_perm p rest).mem_iff.mp hb) with rfl | hb
      · exact hqp
      · exact hq b hb

theorem sortByKey_sorted : ∀ l : List (AwsString × AwsString),
    (sortByKey l).Pairwise (fun a b => lexLe a.1.bytes b.1.bytes = true) := by
  intro l
  induction l with
  | nil => simp [sortByKey]
  | cons p rest ih =>
    rw [sortByKey]
    exact sortInsert_sorted p _ ih

theorem serialize_ok_inv (enc_ctx : EncCtxMap) (output : ByteBuf) (b : ByteBuf)
    (hne : enc_ctx ≠ []) (hdata : output.data = [])
    (h : aws_cryptosdk_enc_ctx_serialize output enc_ctx = (.ok (), b)) :
    b = { output with
      data := encBe16 enc_ctx.length ++ (sortByKey enc_ctx).flatMap encOf } := by
  rcases hsz : aws_cryptosdk_enc_ctx_size enc_ctx with e | t
  · rw [aws_cryptosdk_enc_ctx_serialize] at h
    by_cases hc : 65535 < enc_ctx.length
    · rw [if_pos hc] at h
      exact absurd h (by simp)
    · rw [if_neg hc, hsz] at h
      simp at h
  · obtain ⟨ht, ht2, ht3, hcnt, hbounds⟩ := size_ok_facts enc_ctx t hsz hne
    by_cases hcap : t ≤ output.capacity
    · have he := serialize_ok_eq enc_ctx output t hne hsz hcap hdata
      rw [he] at h
      simp only [Prod.mk.injEq] at h
      exact h.2.symm
    · rw [aws_cryptosdk_enc_ctx_serialize] at h
      rw [if_neg (by omega), hsz] at h
      simp only at h
      rw [if_neg (by omega), if_pos (by omega)] at h
      exact absurd h (by simp)

/-- C2: canonical determinism — two mappings holding the same set of
(key bytes, value bytes) pairs, in any insertion or iteration order,
serialize from fresh buffers to byte-identical output, and the output
lists the entries sorted by byte-lexicographic comparison of the keys'
raw bytes. -/
theorem serialize_canonical_deterministic (M1 M2 : EncCtxMap)
    (out1 out2 b1 b2 : ByteBuf)
    (hperm : List.Perm (M1.map entryBytes) (M2.map entryBytes))
    (hnd1 : (M1.map (fun p => p.1.bytes)).Nodup)
    (hnd2 : (M2.map (fun p => p.1.bytes)).Nodup)
    (hd1 : out1.data = []) (hd2 : out2.data = [])
    (hs1 : aws_cryptosdk_enc_ctx_serialize out1 M1 = (.ok (), b1))
    (hs2 : aws_cryptosdk_enc_ctx_serialize out2 M2 = (.ok (), b2)) :
    b1.data = b2.data ∧
    ((sortByKey M1).map (fun p => p.1.bytes)).Pairwise
      (fun a b => lexLe a b = true) ∧
    (M1 ≠ [] → b1.data =
      encBe16 M1.length ++ (sortByKey M1).flatMap encOf) := by
  have hsorted : ((sortByKey M1).map (fun p => p.1.bytes)).Pairwise
      (fun a b => lexLe a b = true) :=
    List.pairwise_map.mpr (sortByKey_sorted M1)
  have hlen12 : M1.length = M2.length := by
    have hl := hperm.length_eq
    simpa using hl
  by_cases hM1 : M1 = []
  · subst hM1
    have hM2 : M2 = [] := by
      rcases M2 with _ | ⟨p, M2⟩
      · rfl
      · simp at hlen12
    subst hM2
    rw [show aws_cryptosdk_enc_ctx_serialize out1 [] = (.ok (), out1) from rfl] at hs1
    rw [show aws_cryptosdk_enc_ctx_serialize out2 [] = (.ok (), out2) from rfl] at hs2
    simp only [Prod.mk.injEq] at hs1 hs2
    refine ⟨?_, hsorted, fun hc => absurd rfl hc⟩
    rw [← hs1.2, ← hs2.2, hd1, hd2]
  · have hM2 : M2 ≠ [] := by
      intro hc
      subst hc
      have hz : M1.length = 0 := by simpa using hlen12
      exact hM1 (List.length_eq_zero.mp hz)
    have hb1 := serialize_ok_inv M1 out1 b1 hM1 hd1 hs1
    have hb2 := serialize_ok_inv M2 out2 b2 hM2 hd2 hs2
    set es1 := (sortByKey M1).map entryBytes with hes1
    set es2 := (sortByKey M2).map entryBytes with hes2
    have hpermes : List.Perm es1 es2 :=
      (((sortByKey_perm M1).map entryBytes).trans hperm).trans
        ((sortByKey_perm M2).map entryBytes).symm
    have hle1 : es1.Pairwise (fun a b => lexLe a.1 b.1 = true) :=
      List.pairwise_map.mpr (sortByKey_sorted M1)
    have hle2 : es2.Pairwise (fun a b => lexLe a.1 b.1 = true) :=
      List.pairwise_map.mpr (sortByKey_sorted M2)
    have hnodup1 : (es1.map Prod.fst).Nodup := by
      rw [hes1, List.map_map]
      have hfc : (Prod.fst ∘ entryBytes) = fun p : AwsString × AwsString =>
        p.1.bytes := rfl
      rw [hfc]
      exact ((sortByKey_perm M1).map fun p => p.1.bytes).nodup_iff.mpr hnd1
    have hnodup2 : (es2.map Prod.fst).Nodup := by
      rw [hes2, List.map_map]
      have hfc : (Prod.fst ∘ entryBytes) = fun p : AwsString × AwsString =>
        p.1.bytes := rfl
      rw [hfc]
      exact ((sortByKey_perm M2).map fun p => p.1.bytes).nodup_iff.mpr hnd2
    have hne1 : es1.Pairwise (fun a b => a.1 ≠ b.1) :=
      List.pairwise_map.mp hnodup1
    have hne2 : es2.Pairwise (fun a b => a.1 ≠ b.1) :=
      List.pairwise_map.mp hnodup2
    have hlt1 : es1.Pairwise (fun a b => (lexLe a.1 b.1 = true) ∧ a.1 ≠ b.1) :=
      hle1.and hne1
    have hlt2 : es2.Pairwise (fun a b => (lexLe a.1 b.1 = true) ∧ a.1 ≠ b.1) :=
      hle2.and hne2
    haveI : IsAntisymm (List Nat × List Nat)
        (fun a b => (lexLe a.1 b.1 = true) ∧ a.1 ≠ b.1) :=
      ⟨fun a b h1 h2 => absurd (lexLe_antisymm _ _ h1.1 h2.1) h1.2⟩
    have heq : es1 = es2 := List.eq_of_perm_of_sorted hpermes hlt1 hlt2
    refine ⟨?_, hsorted, fun _ => by rw [hb1]⟩
    rw [hb1, hb2]
    show encBe16 M1.length ++ (sortByKey M1).flatMap encOf =
      encBe16 M2.length ++ (sortByKey M2).flatMap encOf
    rw [hlen12, flatMap_encOf_eq, flatMap_encOf_eq, ← hes1, ← hes2, heq]

/-- C2 witness: two concrete two-entry mappings with the same pairs in
opposite orders (and different addresses and ownership) serialize to the
same canonical key-sorted bytes. -/
theorem serialize_canonical_deterministic_witness :
    ({ capacity := 20, data := [0, 2, 0, 1, 97, 0, 1, 5, 0, 1, 98, 0, 1, 6] } :
      ByteBuf).data =
    ({ capacity := 30, data := [0, 2, 0, 1, 97, 0, 1, 5, 0, 1, 98, 0, 1, 6] } :
      ByteBuf).data :=
  (serialize_canonical_deterministic
    [({ addr := 1, allocator := some 1, bytes := [98] },
      { addr := 2, allocator := some 1, bytes := [6] }),
     ({ addr := 3, allocator := some 1, bytes := [97] },
      { addr := 4, allocator := some 1, bytes := [5] })]
    [({ addr := 11, allocator := none, bytes := [97] },
      { addr := 12, allocator := some 9, bytes := [5] }),
     ({ addr := 13, allocator := some 9, bytes := [98] },
      { addr := 14, allocator := some 9, bytes := [6] })]
    { capacity := 20, data := [] } { capacity := 30, data := [] }
    { capacity := 20, data := [0, 2, 0, 1, 97, 0, 1, 5, 0, 1, 98, 0, 1, 6] }
    { capacity := 30, data := [0, 2, 0, 1, 97, 0, 1, 5, 0, 1, 98, 0, 1, 6] }
    (by decide) (by decide) (by decide) rfl rfl rfl rfl).1

/-- C1: round-trip — for a mapping with unique string keys whose size
computation succeeds (hence at most 65535 entries and a total encoding of
at most 65535 bytes), serialization into a fresh large-enough buffer
succeeds, deserializing the produced bytes succeeds consuming them all,
and the result equals the original mapping as a set of (key bytes, value
bytes) pairs, independent of entry order. -/
theorem serialize_deserialize_round_trip (M : EncCtxMap) (output : ByteBuf)
    (alloc n t : Nat) (enc_ctx : EncCtxMap)
    (hnd : (M.map (fun p => p.1.bytes)).Nodup)
    (hsz : aws_cryptosdk_enc_ctx_size M = .ok t)
    (hcap : t ≤ output.capacity) (hdata : output.data = []) :
    ∃ (b : ByteBuf) (m2 : EncCtxMap) (n2 : Nat),
      aws_cryptosdk_enc_ctx_serialize output M = (.ok (), b) ∧
      aws_cryptosdk_enc_ctx_deserialize (fun _ => true) alloc enc_ctx b.data n =
        (.ok (), m2, [], n2) ∧
      List.Perm (m2.map entryBytes) (M.map entryBytes) := by
  by_cases hM : M = []
  · subst hM
    obtain ⟨cap, d⟩ := output
    simp only at hdata
    subst hdata
    exact ⟨⟨cap, []⟩, [], n, rfl, rfl, by simp⟩
  · have hser := serialize_ok_eq M output t hM hsz hcap hdata
    obtain ⟨ht, ht2, ht3, hcnt, hbounds⟩ := size_ok_facts M t hsz hM
    set es := (sortByKey M).map entryBytes with hes
    have heslen : es.length = M.length := by
      rw [hes, List.length_map, (sortByKey_perm M).length_eq]
    have h1 : 1 ≤ es.length := by
      rw [heslen]
      rcases M with _ | ⟨p, M⟩
      · exact absurd rfl hM
      · simp
    have h2 : es.length ≤ 65535 := by omega
    have hlen : ∀ kv ∈ es, kv.1.length ≤ 65535 ∧ kv.2.length ≤ 65535 := by
      intro kv hkv
      rw [hes] at hkv
      obtain ⟨p, hp, rfl⟩ := List.mem_map.mp hkv
      have hb := hbounds p ((sortByKey_perm M).mem_iff.mp hp)
      refine ⟨?_, ?_⟩
      · show (entryBytes p).1.length ≤ 65535
        simp only [entryBytes]
        omega
      · show (entryBytes p).2.length ≤ 65535
        simp only [entryBytes]
        omega
    have hndes : (es.map Prod.fst).Nodup := by
      rw [hes, List.map_map]
      have hfc : (Prod.fst ∘ entryBytes) = fun p : AwsString × AwsString =>
        p.1.bytes := rfl
      rw [hfc]
      exact ((sortByKey_perm M).map fun p => p.1.bytes).nodup_iff.mpr hnd
    have hwf := deserialize_wf_top alloc n enc_ctx es [] h1 h2 hlen hndes
    refine ⟨{ output with
        data := encBe16 M.length ++ (sortByKey M).flatMap encOf },
      newEntries alloc es n, n + 2 * es.length, hser, ?_, ?_⟩
    · have hdat : ({ output with
          data := encBe16 M.length ++ (sortByKey M).flatMap encOf }).data =
          encBe16 es.length ++ (es.flatMap encPair ++ []) := by
        show encBe16 M.length ++ (sortByKey M).flatMap encOf = _
        rw [heslen, List.append_nil, hes, flatMap_encOf_eq]
      rw [hdat]
      exact hwf
    · rw [newEntries_entryBytes alloc es n, hes]
      exact (sortByKey_perm M).map entryBytes

/-- C1 witness at a concrete one-entry mapping and a fresh buffer of
capacity 10. -/
theorem serialize_deserialize_round_trip_witness :
    ∃ (b : ByteBuf) (m2 : EncCtxMap) (n2 : Nat),
      aws_cryptosdk_enc_ctx_serialize { capacity := 10, data := [] }
        [({ addr := 20, allocator := some 1, bytes := [97] },
          { addr := 21, allocator := some 1, bytes := [98] })] = (.ok (), b) ∧
      aws_cryptosdk_enc_ctx_deserialize (fun _ => true) 7 [] b.data 0 =
        (.ok (), m2, [], n2) ∧
      List.Perm (m2.map entryBytes)
        ([({ addr := 20, allocator := some 1, bytes := [97] },
           { addr := 21, allocator := some 1, bytes := [98] })].map entryBytes) :=
  serialize_deserialize_round_trip
    [({ addr := 20, allocator := some 1, bytes := [97] },
      { addr := 21, allocator := some 1, bytes := [98] })]
    { capacity := 10, data := [] } 7 0 8 [] (by simp) rfl (by decide) rfl

/-! ### Clone engine lemmas -/

theorem clone_or_reuse_bytes (oracle : Nat → Bool) (alloc : Nat) (str s : AwsString)
    (n n2 : Nat) (h : clone_or_reuse_string oracle alloc str n = (some s, n2)) :
    s.bytes = str.bytes := by
  rw [clone_or_reuse_string] at h
  by_cases hst : str.allocator = none
  · rw [if_pos hst] at h
    simp only [Prod.mk.injEq, Option.some.injEq] at h
    rw [← h.1]
  · rw [if_neg hst, aws_string_new_from_array] at h
    rcases ho : oracle n with _ | _
    · simp only [ho, Bool.false_eq_true, if_false] at h
      simp at h
    · simp only [ho, eq_self_iff_true, if_true, Prod.mk.injEq,
        Option.some.injEq] at h
      rw [← h.1]

theorem hash_table_find_some_key (m : EncCtxMap) (k : List Nat)
    (p : AwsString × AwsString) (h : hash_table_find m k = some p) :
    p.1.bytes = k := by
  induction m with
  | nil => simp [hash_table_find] at h
  | cons q rest ih =>
    rw [hash_table_find] at h
    by_cases hq : q.1.bytes = k
    · rw [if_pos hq] at h
      simp only [Option.some.injEq] at h
      rw [← h]
      exact hq
    · rw [if_neg hq] at h
      exact ih h

theorem hash_table_find_eq_none (m : EncCtxMap) (k : List Nat)
    (h : ∀ p ∈ m, p.1.bytes ≠ k) : hash_table_find m k = none := by
  induction m with
  | nil => rfl
  | cons q rest ih =>
    rw [hash_table_find, if_neg (h q (List.mem_cons_self _ _))]
    exact ih (fun p hp => h p (List.mem_cons_of_mem _ hp))

theorem hash_table_find_replace (m : EncCtxMap) (k0 : List Nat) (v' : AwsString)
    (k : List Nat) :
    hash_table_find (m.map (fun p => if p.1.bytes = k0 then (p.1, v') else p)) k =
      (hash_table_find m k).map (fun p => if p.1.bytes = k0 then (p.1, v') else p) := by
  induction m with
  | nil => simp [hash_table_find]
  | cons q rest ih =>
    rw [List.map_cons, hash_table_find, hash_table_find]
    have hkey : ((if q.1.bytes = k0 then (q.1, v') else q) :
        AwsString × AwsString).1.bytes = q.1.bytes := by
      by_cases hq0 : q.1.bytes = k0 <;> simp [hq0]
    by_cases hq : q.1.bytes = k
    · rw [if_pos (by rw [hkey]; exact hq), if_pos hq]
      simp
    · rw [if_neg (by rw [hkey]; exact hq), if_neg hq]
      exact ih

theorem hash_table_find_prune_none (dest src : EncCtxMap) (k : List Nat)
    (h : hash_table_find src k = none) :
    hash_table_find (clone_prune dest src) k = none := by
  induction dest with
  | nil => rfl
  | cons p rest ih =>
    rw [clone_prune, List.filter_cons]
    by_cases hp : (hash_table_find src p.1.bytes).isSome = true
    · rw [if_pos hp, hash_table_find]
      by_cases hpk : p.1.bytes = k
      · rw [hpk] at hp
        rw [h] at hp
        simp at hp
      · rw [if_neg hpk]
        exact ih
    · rw [if_neg hp]
      exact ih

theorem hash_table_find_append_single_ne (dest : EncCtxMap) (key value : AwsString)
    (k : List Nat) (hne : ¬ key.bytes = k) :
    hash_table_find (dest ++ [(key, value)]) k = hash_table_find dest k := by
  rw [hash_table_find_append]
  rcases hfk : hash_table_find dest k with _ | q2
  · show hash_table_find [(key, value)] k = none
    rw [hash_table_find, if_neg hne]
    rfl
  · rfl

theorem clone_loop_ok (oracle : Nat → Bool) (alloc : Nat) :
    ∀ (srcRest : List (AwsString × AwsString)) (dest : EncCtxMap) (n : Nat)
      (dest2 : EncCtxMap) (n2 : Nat),
    (srcRest.map (fun p => p.1.bytes)).Nodup →
    clone_loop oracle alloc srcRest dest n = (.ok (), dest2, n2) →
    ∀ k : List Nat,
      (hash_table_find dest2 k).map (fun p => p.2.bytes) =
        match hash_table_find srcRest k with
        | some q => some q.2.bytes
        | none => (hash_table_find dest k).map (fun p => p.2.bytes) := by
  intro srcRest
  induction srcRest with
  | nil =>
    intro dest n dest2 n2 _ h k
    rw [clone_loop] at h
    simp only [Prod.mk.injEq] at h
    rw [← h.2.1]
    rfl
  | cons e rest ih =>
    intro dest n dest2 n2 hnd h k
    obtain ⟨sk, sv⟩ := e
    rw [clone_loop] at h
    rw [List.map_cons] at hnd
    have hknotin : sk.bytes ∉ rest.map (fun p => p.1.bytes) :=
      (List.nodup_cons.mp hnd).1
    have hndrest : (rest.map (fun p => p.1.bytes)).Nodup :=
      (List.nodup_cons.mp hnd).2
    have hrestnone : hash_table_find rest sk.bytes = none := by
      apply hash_table_find_eq_none
      intro p hp hcon
      exact hknotin (by rw [← hcon]; exact List.mem_map_of_mem _ hp)
    rcases hf : hash_table_find dest sk.bytes with _ | de
    · -- key absent from destination: a new entry is created
      simp only [hf] at h
      rcases hck : clone_or_reuse_string oracle alloc sk n with ⟨ko, n1x⟩
      rcases hcv2 : clone_or_reuse_string oracle alloc sv n1x with ⟨vo, n2x⟩
      simp only [hck, hcv2] at h
      rcases ko with _ | key
      · simp at h
      rcases vo with _ | value
      · simp at h
      have hkb : key.bytes = sk.bytes := clone_or_reuse_bytes _ _ _ _ _ _ hck
      have hvb : value.bytes = sv.bytes := clone_or_reuse_bytes _ _ _ _ _ _ hcv2
      simp only [aws_hash_table_put, hkb, hf] at h
      have hind := ih (dest ++ [(key, value)]) n2x dest2 n2 hndrest h k
      rw [hind, hash_table_find]
      by_cases hk : sk.bytes = k
      · rw [if_pos hk]
        have hrn : hash_table_find rest k = none := by
          rw [← hk]; exact hrestnone
        have hfk : hash_table_find dest k = none := by
          rw [← hk]; exact hf
        rw [hrn, hash_table_find_append, hfk, hash_table_find,
          if_pos (by rw [hkb]; exact hk)]
        simp [hvb]
      · rw [if_neg hk]
        rcases hr : hash_table_find rest k with _ | q
        · show (hash_table_find (dest ++ [(key, value)]) k).map
              (fun p => p.2.bytes) =
            (hash_table_find dest k).map (fun p => p.2.bytes)
          rw [hash_table_find_append_single_ne dest key value k
            (by rw [hkb]; exact hk)]
        · rfl
    · -- key present in destination
      simp only [hf] at h
      by_cases heq : aws_string_eq de.2 sv = true
      · rw [if_pos heq] at h
        have hvb : de.2.bytes = sv.bytes := by
          have := of_decide_eq_true heq
          exact this
        have hind := ih dest n dest2 n2 hndrest h k
        rw [hind, hash_table_find]
        by_cases hk : sk.bytes = k
        · rw [if_pos hk]
          have hrn : hash_table_find rest k = none := by
            rw [← hk]; exact hrestnone
          have hfk : hash_table_find dest k = some de := by
            rw [← hk]; exact hf
          rw [hrn, hfk]
          simp [hvb]
        · rw [if_neg hk]
      · rw [if_neg heq] at h
        rcases hcv2 : clone_or_reuse_string oracle alloc sv n with ⟨vo, n1x⟩
        simp only [hcv2] at h
        rcases vo with _ | value
        · simp at h
        have hvb : value.bytes = sv.bytes := clone_or_reuse_bytes _ _ _ _ _ _ hcv2
        have hind := ih _ n1x dest2 n2 hndrest h k
        rw [hind, hash_table_find]
        by_cases hk : sk.bytes = k
        · rw [if_pos hk]
          have hrn : hash_table_find rest k = none := by
            rw [← hk]; exact hrestnone
          have hfk : hash_table_find dest k = some de := by
            rw [← hk]; exact hf
          rw [hrn, hash_table_find_replace, hfk]
          have hde : de.1.bytes = sk.bytes := by
            rw [hash_table_find_some_key dest sk.bytes de hf]
          simp [hde, hvb]
        · rw [if_neg hk]
          rcases hr : hash_table_find rest k with _ | q
          · show (hash_table_find (dest.map fun p =>
                if p.1.bytes = sk.bytes then (p.1, value) else p) k).map
                (fun p => p.2.bytes) =
              (hash_table_find dest k).map (fun p => p.2.bytes)
            rw [hash_table_find_replace]
            rcases hfk : hash_table_find dest k with _ | q2
            · rfl
            · have hq2 : q2.1.bytes = k :=
                hash_table_find_some_key dest k q2 hfk
              have hcond : ¬ (q2.1.bytes = sk.bytes) := by
                rw [hq2]
                intro hcon
                exact hk hcon.symm
              simp [hcond]
          · rfl

/-- C7: clone convergence — whenever the clone succeeds, for every key
the destination holds exactly the source's value bytes for that key and
holds nothing for keys absent from the source: the destination's key set
equals the source's key set and every value is byte-equal. -/
theorem enc_ctx_clone_convergence (oracle : Nat → Bool) (alloc : Nat)
    (dest src : EncCtxMap) (n : Nat) (dest2 : EncCtxMap) (n2 : Nat)
    (hnd : (src.map (fun p => p.1.bytes)).Nodup)
    (h : aws_cryptosdk_enc_ctx_clone oracle alloc dest src n =
      (.ok (), dest2, n2)) :
    ∀ k : List Nat,
      (hash_table_find dest2 k).map (fun p => p.2.bytes) =
      (hash_table_find src k).map (fun p => p.2.bytes) := by
  intro k
  rw [aws_cryptosdk_enc_ctx_clone] at h
  have hl := clone_loop_ok oracle alloc src (clone_prune dest src) n dest2 n2 hnd h k
  rw [hl]
  rcases hs : hash_table_find src k with _ | q
  · show (hash_table_find (clone_prune dest src) k).map (fun p => p.2.bytes) =
      (none : Option (AwsString × AwsString)).map (fun p => p.2.bytes)
    rw [hash_table_find_prune_none dest src k hs]
  · rfl

/-- C7 witness: cloning a one-entry source over a destination holding a
different key converges: after the clone, the source key maps to the
source value bytes and the stale destination key is gone. -/
theorem enc_ctx_clone_convergence_witness :
    ((hash_table_find
        [({ addr := 100, allocator := some 7, bytes := [97] },
          { addr := 101, allocator := some 7, bytes := [1] })] [97]).map
      (fun p => p.2.bytes) =
    (hash_table_find
        [({ addr := 40, allocator := some 2, bytes := [97] },
          { addr := 41, allocator := some 2, bytes := [1] })] [97]).map
      (fun p => p.2.bytes)) ∧
    ((hash_table_find
        [({ addr := 100, allocator := some 7, bytes := [97] },
          { addr := 101, allocator := some 7, bytes := [1] })] [99]).map
      (fun p => p.2.bytes) =
    (hash_table_find
        [({ addr := 40, allocator := some 2, bytes := [97] },
          { addr := 41, allocator := some 2, bytes := [1] })] [99]).map
      (fun p => p.2.bytes)) := by
  have h := enc_ctx_clone_convergence (fun _ => true) 7
    [({ addr := 30, allocator := some 2, bytes := [99] },
      { addr := 31, allocator := some 2, bytes := [7] })]
    [({ addr := 40, allocator := some 2, bytes := [97] },
      { addr := 41, allocator := some 2, bytes := [1] })]
    100
    [({ addr := 100, allocator := some 7, bytes := [97] },
      { addr := 101, allocator := some 7, bytes := [1] })]
    102 (by decide) rfl
  exact ⟨h [97], h [99]⟩

/-- C8: copy-versus-reuse policy — a statically-owned source string (its
allocator is NULL) is installed by reference: the clone helper returns
the very same string and consumes no fresh address; any other source
string is installed as a freshly allocated allocator-owned copy of its
bytes living at a new address distinct from the source's. -/
theorem clone_or_reuse_policy (oracle : Nat → Bool) (alloc : Nat)
    (str : AwsString) (n : Nat) :
    (str.allocator = none →
      clone_or_reuse_string oracle alloc str n = (some str, n)) ∧
    (str.allocator ≠ none → oracle n = true → str.addr < n →
      clone_or_reuse_string oracle alloc str n =
        (some { addr := n, allocator := some alloc, bytes := str.bytes },
          n + 1) ∧
      n ≠ str.addr) := by
  constructor
  · intro h
    rw [clone_or_reuse_string, if_pos h]
  · intro h ho hlt
    refine ⟨?_, by omega⟩
    rw [clone_or_reuse_string, if_neg h, aws_string_new_from_array, ho]
    simp

/-- C8 witness: a static string is reused as the very same reference; an
allocator-owned string is copied to a fresh distinct address owned by the
new allocator. -/
theorem clone_or_reuse_policy_witness :
    clone_or_reuse_string (fun _ => true) 7
      { addr := 3, allocator := none, bytes := [97] } 10 =
      (some { addr := 3, allocator := none, bytes := [97] }, 10) ∧
    (clone_or_reuse_string (fun _ => true) 7
      { addr := 3, allocator := some 1, bytes := [97] } 10 =
      (some { addr := 10, allocator := some 7, bytes := [97] }, 11) ∧
      (10 : Nat) ≠ 3) := by
  constructor
  · exact (clone_or_reuse_policy (fun _ => true) 7
      { addr := 3, allocator := none, bytes := [97] } 10).1 rfl
  · exact (clone_or_reuse_policy (fun _ => true) 7
      { addr := 3, allocator := some 1, bytes := [97] } 10).2
      (by simp) rfl (by show (3 : Nat) < 10; omega)

/-- C6: deserializing an empty cursor succeeds with an empty mapping; a
non-empty cursor whose 2-byte count reads zero fails with BadCiphertext;
a non-empty cursor with fewer than 2 bytes fails with ShortBuffer — the
target mapping is empty in every case. -/
theorem deserialize_zero_count_vs_empty (oracle : Nat → Bool) (alloc : Nat)
    (enc_ctx : EncCtxMap) (n : Nat) :
    (aws_cryptosdk_enc_ctx_deserialize oracle alloc enc_ctx [] n = (.ok (), [], [], n)) ∧
    (∀ rest : List Nat,
      aws_cryptosdk_enc_ctx_deserialize oracle alloc enc_ctx (0 :: 0 :: rest) n =
        (.error .badCiphertext, [], rest, n)) ∧
    (∀ b : Nat,
      aws_cryptosdk_enc_ctx_deserialize oracle alloc enc_ctx [b] n =
        (.error .shortBuffer, [], [b], n)) := by
  refine ⟨rfl, ?_, ?_⟩
  · intro rest
    simp [aws_cryptosdk_enc_ctx_deserialize, aws_cryptosdk_enc_ctx_clear, readBe16]
  · intro b
    simp [aws_cryptosdk_enc_ctx_deserialize, aws_cryptosdk_enc_ctx_clear, readBe16]

/-- C4: whenever deserialization returns an error — for any input cursor,
any initial state of the target mapping and any allocation behaviour —
the target mapping is left completely empty. -/
theorem deserialize_failure_atomicity (oracle : Nat → Bool) (alloc : Nat)
    (enc_ctx : EncCtxMap) (cursor : List Nat) (n : Nat) (e : Err)
    (m : EncCtxMap) (c2 : List Nat) (n2 : Nat)
    (h : aws_cryptosdk_enc_ctx_deserialize oracle alloc enc_ctx cursor n =
      (.error e, m, c2, n2)) :
    m = [] := by
  simp only [aws_cryptosdk_enc_ctx_deserialize, aws_cryptosdk_enc_ctx_clear] at h
  split at h
  · simp at h
  · split at h
    · simp at h
      exact h.2.1
    · split at h
      · simp at h
        exact h.2.1
      · split at h
        · simp at h
        · simp at h
          exact h.2.1

/-- C4 witness: a concrete failed parse (zero count on a non-empty
cursor, starting from a non-empty target mapping) leaves the mapping
empty. -/
theorem deserialize_failure_atomicity_witness : ([] : EncCtxMap) = [] :=
  deserialize_failure_atomicity (fun _ => true) 7
    [({ addr := 9, allocator := some 1, bytes := [5] },
      { addr := 10, allocator := some 1, bytes := [6] })] [0, 0] 3
    .badCiphertext [] [] 3 rfl

end EncCtx
